import Mathlib

/-!
# Verification of the `httpsim` request-matching and effect-application engine

Shallow embedding of the Go repository `romshark/httpsim`:

* `config` package (`config.go`): the configuration data model
  (`GlobExpression`, `DurRange`, `Replace`, `Effect`, `Resource`, `Config`)
  and its validation helpers.
* `httpsim` package (`httpsim.go`): `MatchResource`, `Match`,
  `Middleware.apply` and `Middleware.ServeHTTP`.
* `internal/rand` package (`rand.go`): `NewSeed`, `Source.Dur`, `Source.Bool`
  on top of the Go `math/rand/v2` ChaCha8-based generator.

Glob compilation is an external capability in the source
(`github.com/gobwas/glob`); a compiled matcher is therefore embedded as an
abstract predicate `String → Bool`, and the `GlobExpression` struct keeps the
nilable-pointer shape of the source (`none` = the uninitialized zero value).
-/

namespace Httpsim

/-- A compiled glob matcher (external capability `glob.Glob`): an opaque
candidate-string predicate. -/
def GlobFn : Type := String → Bool

/-- `config.GlobExpression`: a struct holding a nilable pointer to a compiled
glob; the zero value has `glob = nil` (here `none`). -/
structure GlobExpression where
  glob : Option GlobFn

/-- The zero value of `config.GlobExpression` (a matcher that was never
compiled from a pattern). -/
def GlobExpression.uninitialized : GlobExpression := ⟨none⟩

/-- `config.GlobExpression.Match`: `if g.glob == nil { return true };
return (*g.glob).Match(s)`. -/
def GlobExpression.Match (g : GlobExpression) (s : String) : Bool :=
  match g.glob with
  | none => true
  | some m => m s

/-- Errors returned by the `config` package validators. -/
inductive ConfigError where
  | errMinGreaterMax
  deriving DecidableEq

/-- `config.DurRange`: `Min`, `Max` of Go type `time.Duration`
(an `int64` count of nanoseconds, embedded as `Int`). -/
structure DurRange where
  min : Int
  max : Int
  deriving DecidableEq

/-- `config.DurRange.Validate`: `if r.Min > r.Max { return ErrMinGreaterMax };
return nil`.  `none` embeds the nil (success) error. -/
def DurRange.Validate (r : DurRange) : Option ConfigError :=
  if r.min > r.max then some ConfigError.errMinGreaterMax else none

/-- `config.Replace`: replacement status code, optional body and literal
headers.  The Go `map[HeaderName]string` is embedded as an association list
(Go map keys are unique; theorems needing that carry a `Nodup` hypothesis). -/
structure Replace where
  statusCode : Int
  body : Option String
  headers : List (String × String)

/-- `config.Effect`: optional delay range and optional replacement. -/
structure Effect where
  delay : Option DurRange
  replace : Option Replace

/-- `config.Resource`: one matching rule.  The Go
`GlobMap[[]GlobExpression]` maps (header-name / query-parameter-name) globs to
ordered value-glob lists; it is embedded as an association list — rule
matching folds a pure conjunction over the entries, so the (randomized) Go map
iteration order cannot affect the result. -/
structure Resource where
  methods : List String
  path : GlobExpression
  headers : List (GlobExpression × List GlobExpression)
  query : List (GlobExpression × List GlobExpression)
  effect : Option Effect

instance : Inhabited Resource := ⟨⟨[], GlobExpression.uninitialized, [], [], none⟩⟩

/-- `config.Config`: the ordered resource-rule list. -/
structure Config where
  resources : List Resource

/-- Read view of an incoming `*http.Request` as consumed by the matcher:
method, URL path, header multimap and query multimap (name → ordered
values). -/
structure Request where
  method : String
  path : String
  headers : List (String × List String)
  query : List (String × List String)

/-- The header/query matching loops of `MatchResource`
(`httpsim.go` lines 169–200): for every configured `(nameGlob, valueGlobs)`
entry and every request field whose name matches `nameGlob`, the value list
of that field must have exactly the length of `valueGlobs` and every value at
position `i` must match `valueGlobs[i]`; fields whose name matches no entry
are ignored.  The Go loop returns `false` on the first violation; as a pure
conjunction this is the same boolean. -/
def matchGlobFields (cfg : List (GlobExpression × List GlobExpression))
    (req : List (String × List String)) : Bool :=
  cfg.all fun entry =>
    req.all fun field =>
      !(entry.1.Match field.1) ||
      (field.2.length == entry.2.length &&
        (entry.2.zip field.2).all fun p => p.1.Match p.2)

/-- `httpsim.MatchResource`: method membership (skipped when `Methods` is
empty), path glob, then the header and query checks. -/
def MatchResource (r : Request) (c : Resource) : Bool :=
  if 0 < c.methods.length && !(c.methods.contains r.method) then false
  else if !(c.path.Match r.path) then false
  else matchGlobFields c.headers r.headers && matchGlobFields c.query r.query

/-- The loop body of `httpsim.Match`: scan `l` in order starting at absolute
index `k`, returning the absolute index of the first matching rule, else
`-1`. -/
def matchFrom (r : Request) : List Resource → Nat → Int
  | [], _ => -1
  | res :: rest, k => if MatchResource r res then (k : Int) else matchFrom r rest (k + 1)

/-- `httpsim.Match`: index of the first resource matched by `r`,
`-1` when none matches. -/
def Match (r : Request) (c : Config) : Int := matchFrom r c.resources 0

/-! ## Response writer

`Middleware.apply` writes to a `net/http.ResponseWriter`.  The embedding
captures the response-commit semantics of `net/http` (observed identically by
`httptest.ResponseRecorder`, used by the repository tests): the first
`Write` commits status 200 when no status was committed yet, and a
`WriteHeader` after the status has been committed is superfluous and ignored.
Header keys are kept literal (the repository only uses canonical-form keys, so
the Go header-key canonicalization is the identity on them). -/

/-- Response sink state: the header map (`Set` semantics: one value per
name, embedded extensionally as a lookup function), body written so far, and
the committed status code (`none` = not yet committed). -/
structure ResponseWriter where
  headerMap : String → Option String
  body : String
  status : Option Int

/-- A fresh response writer, as handed to a handler for a new request. -/
def freshW : ResponseWriter := ⟨fun _ => none, "", none⟩

/-- `w.Header().Set(k, v)`: replace any existing value of header `k` by `v`. -/
def setHeader (w : ResponseWriter) (k v : String) : ResponseWriter :=
  { w with headerMap := fun q => if q == k then some v else w.headerMap q }

/-- Value of header `k` on the response (`w.Header().Get(k)`). -/
def getHeader (w : ResponseWriter) (k : String) : Option String :=
  w.headerMap k

/-- `w.Write(b)`: commits status 200 when no status was committed yet, then
appends `b` to the body. -/
def writeBody (w : ResponseWriter) (b : String) : ResponseWriter :=
  { w with status := some (w.status.getD 200), body := w.body ++ b }

/-- `w.WriteHeader(code)`: commits `code` unless a status was already
committed (in which case the call is superfluous and ignored). -/
def writeHeader (w : ResponseWriter) (code : Int) : ResponseWriter :=
  match w.status with
  | some _ => w
  | none => { w with status := some code }

/-! ## Middleware

`RandProvider` is an interface with `Dur(min, max)`; `ServeHTTP` performs at
most one `Dur` call per request, so for a single request the provider is
embedded as a pure function `rnd : Int → Int → Int` (the one value the stream
would yield for that call).  The `Sleeper` is embedded by recording the
durations passed to `Sleep`, in call order. -/

/-- `httpsim.CtxInfo`: outcome metadata attached to the request context. -/
structure CtxInfo where
  matchedResourceIndex : Int
  delay : Int
  replaced : Bool
  deriving DecidableEq

/-- `httpsim.CtxInfoValue`: reads `CtxInfo` from a context, defaulting to
`{MatchedResourceIndex: -1}` when absent. -/
def CtxInfoValue (v : Option CtxInfo) : CtxInfo := v.getD ⟨-1, 0, false⟩

/-- `Middleware.apply` (`httpsim.go` lines 206–224): optional delay sampling
and sleep, then optional replacement (headers, then body, then status code).
Returns the mutated writer, the recorded sleeps, and the
`(delay, replaced)` pair the Go method returns. -/
def Middleware.apply (rnd : Int → Int → Int) (w : ResponseWriter) (c : Effect) :
    ResponseWriter × List Int × Int × Bool :=
  let (slept, delay) :=
    match c.delay with
    | some d => let dl := rnd d.min d.max; ([dl], dl)
    | none => ([], 0)
  match c.replace with
  | some rep =>
    let w := rep.headers.foldl (fun w kv => setHeader w kv.1 kv.2) w
    let w := match rep.body with
      | some b => writeBody w b
      | none => w
    let w := writeHeader w rep.statusCode
    (w, slept, delay, true)
  | none => (w, slept, delay, false)

/-- Observable result of one `Middleware.ServeHTTP` call: final response
state, recorded sleeps, whether `next.ServeHTTP` was invoked, and the
`CtxInfo` attached to the request context (`none` when no rule matched). -/
structure ServeResult where
  w : ResponseWriter
  slept : List Int
  nextInvoked : Bool
  ctxInfo : Option CtxInfo

/-- `Middleware.ServeHTTP` (`httpsim.go` lines 130–149): match against the
configuration; on a match, apply the effect of the rule (when present), attach the
outcome to the context, and stop when the response was replaced; otherwise
forward to the next handler. -/
def Middleware.ServeHTTP (rnd : Int → Int → Int) (conf : Config) (r : Request)
    (w : ResponseWriter) : ServeResult :=
  let i := Match r conf
  if i == -1 then ⟨w, [], true, none⟩
  else
    let res := conf.resources.getD i.toNat default
    let (w', slept, delay, replaced) :=
      match res.effect with
      | some eff => Middleware.apply rnd w eff
      | none => (w, [], 0, false)
    let info : CtxInfo := ⟨i, delay, replaced⟩
    ⟨w', slept, !replaced, some info⟩

end Httpsim

namespace Rand

/-!
## `internal/rand` and the underlying `math/rand/v2` machinery

A seed is a 32-byte value, embedded as a `List Nat` of bytes.  `NewSeed`
panics in Go when the input is not exactly 32 bytes; the panic is embedded as
`none`. -/

/-- `rand.NewSeed` (`internal/rand/rand.go` lines 16–23): succeeds with the
input bytes exactly when the input is 32 bytes long; the Go panic on any
other length is embedded as `none`. -/
def NewSeed (s : List Nat) : Option (List Nat) :=
  if s.length == 32 then some s else none

/-! ### `math/rand/v2` value derivation, generic over the `Uint64` stream

`rand.Rand` wraps a source exposing `Uint64`.  The stream is embedded as a
state type `σ` with a step function `next : σ → Nat × σ` producing the next
`uint64` (a `Nat < 2^64`) and the successor state.  `uint64n` is the Go
`Rand.uint64n` on a 64-bit platform (the `is32bit` branch is dead there); its
rejection loop is unbounded in Go, so it takes a fuel bound and returns
`none` on fuel exhaustion. -/

/-- High 64 bits of the 128-bit product (`bits.Mul64`). -/
def mul64hi (x n : Nat) : Nat := x * n / 2 ^ 64

/-- Low 64 bits of the 128-bit product (`bits.Mul64`). -/
def mul64lo (x n : Nat) : Nat := x * n % 2 ^ 64

/-- The rejection loop of `Rand.uint64n`: redraw while `lo < thresh`,
with `thresh = (2^64 - n) % n`; accept with value `hi`. -/
def uint64nLoop {σ : Type} (next : σ → Nat × σ) (n thresh : Nat) :
    Nat → σ → Option (Nat × σ)
  | 0, _ => none
  | fuel + 1, st =>
    let (v, st') := next st
    if mul64lo v n < thresh then uint64nLoop next n thresh fuel st'
    else some (mul64hi v n, st')

/-- `Rand.uint64n(n)` for `n > 0` on a 64-bit platform: mask draw for powers
of two, otherwise Lemire reduction with rejection. -/
def uint64n {σ : Type} (next : σ → Nat × σ) (fuel : Nat) (st : σ) (n : Nat) :
    Option (Nat × σ) :=
  if n &&& (n - 1) == 0 then
    let (v, st') := next st
    some (v &&& (n - 1), st')
  else
    let (v, st') := next st
    let lo := mul64lo v n
    if lo < n then
      if lo < (2 ^ 64 - n) % n then uint64nLoop next n ((2 ^ 64 - n) % n) fuel st'
      else some (mul64hi v n, st')
    else some (mul64hi v n, st')

/-- `rand.Source.Dur` (`internal/rand/rand.go` lines 44–50): `min` when
`min >= max` (without touching the stream), otherwise
`min + Rand.Int64N(max - min)` where `Int64N(n) = uint64n(n)`. -/
def durGen {σ : Type} (next : σ → Nat × σ) (fuel : Nat) (st : σ)
    (mn mx : Int) : Option (Int × σ) :=
  if mn ≥ mx then some (mn, st)
  else
    match uint64n next fuel st (mx - mn).toNat with
    | some (v, st') => some (mn + (v : Int), st')
    | none => none

/-- `rand.Source.Bool` (`internal/rand/rand.go` line 53):
`IntN(2) == 1`, where `uint64n(2)` takes the power-of-two mask branch and
never rejects, so the draw always succeeds with one stream step. -/
def boolGen {σ : Type} (next : σ → Nat × σ) (st : σ) : Bool × σ :=
  match uint64n next 1 st 2 with
  | some (v, st') => (v == 1, st')
  | none => (false, st)

/-! ### The ChaCha8 stream (`rand.NewChaCha8`, Go `internal/chacha8rand`)

`rand.NewSourceChaCha8` wraps `math/rand/v2.NewChaCha8(seed)`.  The Go
ChaCha8-based generator works in chunks of four ChaCha8 blocks: each block
runs the standard eight ChaCha rounds on the state
`(constants, key, counter+i, 0, 0, 0)` and then feeds the key words (only)
forward; the 16 words of each of the four blocks are interleaved word-major into 64
`uint32` values read out as 32 `uint64` values.  Every fourth chunk the
generator reseeds itself from the last four values of the chunk, which are
then withheld from the output.  All arithmetic is on `Nat` with explicit
reduction mod `2^32`. -/

/-- 32-bit modular addition. -/
def add32 (a b : Nat) : Nat := (a + b) % 4294967296

/-- 32-bit left rotation of a value `< 2^32`. -/
def rotl32 (a n : Nat) : Nat := ((a <<< n) % 4294967296) ||| (a >>> (32 - n))

/-- The ChaCha quarter round applied to positions `ia ib ic id` of a 16-word
state. -/
def qr (s : List Nat) (ia ib ic id : Nat) : List Nat :=
  let a := s.getD ia 0
  let b := s.getD ib 0
  let c := s.getD ic 0
  let d := s.getD id 0
  let a := add32 a b
  let d := rotl32 (d ^^^ a) 16
  let c := add32 c d
  let b := rotl32 (b ^^^ c) 12
  let a := add32 a b
  let d := rotl32 (d ^^^ a) 8
  let c := add32 c d
  let b := rotl32 (b ^^^ c) 7
  (((s.set ia a).set ib b).set ic c).set id d

/-- One ChaCha double round: four column quarter rounds, then four diagonal
quarter rounds. -/
def doubleRound (s : List Nat) : List Nat :=
  let s := qr s 0 4 8 12
  let s := qr s 1 5 9 13
  let s := qr s 2 6 10 14
  let s := qr s 3 7 11 15
  let s := qr s 0 5 10 15
  let s := qr s 1 6 11 12
  let s := qr s 2 7 8 13
  qr s 3 4 9 14

/-- The eight 32-bit key words of a seed held as four `uint64` values
(little-endian split, as in the Go `block` function). -/
def keyWords (seed : List Nat) : List Nat :=
  seed.flatMap fun u => [u % 4294967296, u / 4294967296]

/-- Initial ChaCha state: the `"expand 32-byte k"` constants, the eight key
words, the block counter, and a zero nonce. -/
def chachaInit (key : List Nat) (counter : Nat) : List Nat :=
  [0x61707865, 0x3320646e, 0x79622d32, 0x6b206574] ++ key ++
    [counter % 4294967296, 0, 0, 0]

/-- One ChaCha8Rand block: eight rounds, then feed-forward of the key words
only (words 4–11). -/
def chacha8Block (seed : List Nat) (counter : Nat) : List Nat :=
  let key := keyWords seed
  let s := chachaInit key counter
  let s := doubleRound (doubleRound (doubleRound (doubleRound s)))
  (List.range 16).map fun i =>
    if 4 ≤ i ∧ i < 12 then add32 (s.getD i 0) (key.getD (i - 4) 0) else s.getD i 0

/-- One chunk of 32 `uint64` outputs: blocks at counters `c, c+1, c+2, c+3`,
interleaved word-major (`uint32` index `4*w + i` holds word `w` of block `i`)
and paired little-endian into `uint64` values. -/
def chunkBuf (seed : List Nat) (c : Nat) : List Nat :=
  let blocks := (List.range 4).map fun i => chacha8Block seed (c + i)
  (List.range 32).map fun j =>
    let lo32 := (blocks.getD ((2 * j) % 4) []).getD ((2 * j) / 4) 0
    let hi32 := (blocks.getD ((2 * j + 1) % 4) []).getD ((2 * j + 1) / 4) 0
    lo32 + hi32 * 4294967296

/-- Go `internal/chacha8rand.State`: the current seed (four `uint64` values),
the output buffer, the read cursor `i`, the number `n` of readable values and
the block counter `c`. -/
structure ChaCha8State where
  seed : List Nat
  buf : List Nat
  i : Nat
  n : Nat
  c : Nat

/-- A 32-byte seed read as four little-endian `uint64` values
(`State.Init`). -/
def bytesToSeed64 (bytes : List Nat) : List Nat :=
  (List.range 4).map fun k =>
    (List.range 8).foldr (fun b acc => acc * 256 + bytes.getD (8 * k + b) 0) 0

/-- `chacha8rand.State.Init`: generate the first chunk at counter 0; all 32
values are readable. -/
def chacha8Init (bytes : List Nat) : ChaCha8State :=
  let seed := bytesToSeed64 bytes
  ⟨seed, chunkBuf seed 0, 0, 32, 0⟩

/-- `chacha8rand.State.Refill`: advance the counter by 4; at counter 16,
reseed from the last four buffered values and restart at counter 0; the chunk
generated at counter 12 withholds its last four values (they become the next
seed). -/
def refill (s : ChaCha8State) : ChaCha8State :=
  let c := s.c + 4
  let (seed, c) :=
    if c == 16 then ((s.buf.drop 28).take 4, 0) else (s.seed, c)
  let buf := chunkBuf seed c
  ⟨seed, buf, 0, if c == 12 then 28 else 32, c⟩

/-- `ChaCha8.Uint64`: read the next buffered value, refilling when the buffer
is exhausted (one refill always suffices, since a refilled buffer holds at
least 28 readable values). -/
def chacha8Uint64 (s : ChaCha8State) : Nat × ChaCha8State :=
  if s.i < s.n then (s.buf.getD s.i 0, { s with i := s.i + 1 })
  else
    let s' := refill s
    (s'.buf.getD 0 0, { s' with i := 1 })

/-- UTF-8 bytes of an ASCII string, as used when a Go seed string is copied
into the 32-byte seed array. -/
def stringBytes (s : String) : List Nat := s.toList.map Char.toNat

/-- The fixed call sequence pinned by `TestSource`
(`internal/rand/rand_test.go` lines 17–23) on a source freshly seeded from
the given bytes: `Bool()`, `Dur(1s, 1s)`, `Dur(1s, 2s)`, `Dur(0, 1h)`
(durations in nanoseconds). -/
def sourceRun (bytes : List Nat) : Option (Bool × Int × Int × Int) :=
  let st := chacha8Init bytes
  let (b, st) := boolGen chacha8Uint64 st
  match durGen chacha8Uint64 100 st 1000000000 1000000000 with
  | none => none
  | some (d1, st) =>
    match durGen chacha8Uint64 100 st 1000000000 2000000000 with
    | none => none
    | some (d2, st) =>
      match durGen chacha8Uint64 100 st 0 3600000000000 with
      | none => none
      | some (d3, _) => some (b, d1, d2, d3)

end Rand

namespace Httpsim

/-! ## Concrete configurations, rules and requests used in the theorems -/

/-- A compiled glob for a wildcard-free pattern: matches exactly the literal
pattern string. -/
def eqGlob (pat : String) : GlobExpression := ⟨some fun s => s == pat⟩

/-- The rule of the end-to-end replacement scenario: `path: "/specific"`,
`methods: [DELETE]`, `effect.replace: {statusCode: 404, body: "Specific
resource not found", headers: {Content-Type: text/plain}}`. -/
def specificRule : Resource :=
  { methods := ["DELETE"]
    path := eqGlob "/specific"
    headers := []
    query := []
    effect := some
      ⟨none, some ⟨404, some "Specific resource not found",
        [("Content-Type", "text/plain")]⟩⟩ }

/-- Configuration holding only `specificRule`. -/
def specificConf : Config := ⟨[specificRule]⟩

/-- A `DELETE /specific` request. -/
def deleteSpecificReq : Request := ⟨"DELETE", "/specific", [], []⟩

/-- A rule with only `effect.delay: {min: 1s, max: 2s}` and no replacement,
matching every request. -/
def delayRule : Resource :=
  { methods := []
    path := GlobExpression.uninitialized
    headers := []
    query := []
    effect := some ⟨some ⟨1000000000, 2000000000⟩, none⟩ }

/-- Configuration holding only `delayRule`. -/
def delayConf : Config := ⟨[delayRule]⟩

/-- A plain `GET /` request with no headers or query parameters. -/
def plainReq : Request := ⟨"GET", "/", [], []⟩

/-- A rule constraining one header and one query parameter to single
values. -/
def hdrRule : Resource :=
  { methods := []
    path := GlobExpression.uninitialized
    headers := [(eqGlob "X-Custom", [eqGlob "foo"])]
    query := [(eqGlob "param", [eqGlob "bar"])]
    effect := none }

/-- A request carrying exactly the header and query value `hdrRule`
requires. -/
def hdrReq : Request := ⟨"POST", "/", [("X-Custom", ["foo"])], [("param", ["bar"])]⟩

/-- A rule constraining the `Content-Type` header and the `foo` query
parameter (mirrors the "Ignore headers" / "Ignore query parameter" test
cases). -/
def ctRule : Resource :=
  { methods := []
    path := GlobExpression.uninitialized
    headers := [(eqGlob "Content-Type", [eqGlob "application/json"])]
    query := [(eqGlob "foo", [eqGlob "bar"])]
    effect := none }

/-- A request carrying no header named `Content-Type` and no query parameter
named `foo`. -/
def xCustomReq : Request :=
  ⟨"POST", "/", [("X-Custom", ["ignore this header"])], [("bazz", ["mazz"])]⟩

end Httpsim

/-! # Theorems -/

/-- C7: the zero-value (uninitialized, never compiled) glob expression
matches every candidate string, including the empty string — the
"no constraint specified" default for omitted path, header-name and value
patterns. -/
theorem uninitialized_glob_matches_every_string (s : String) :
    Httpsim.GlobExpression.Match Httpsim.GlobExpression.uninitialized s = true := rfl

/-- C4 counterexample: `DurRange.Validate` accepts the range
`{Min: -10, Max: 1}` even though its `min` is negative, refuting the claim
that validation rejects every `DurRange` with a negative `min` (the
repository test `TestDurRange` itself requires exactly this acceptance). -/
theorem durRange_negative_min_accepted :
    Httpsim.DurRange.Validate ⟨-10, 1⟩ = none ∧ (-10 : Int) < 0 := by decide

/-- C4 amended: `DurRange.Validate` accepts a duration range exactly when
`min ≤ max`; it never checks for negative durations, so ranges with a
negative `min` pass validation whenever `min ≤ max`. -/
theorem durRange_validate_iff (r : Httpsim.DurRange) :
    Httpsim.DurRange.Validate r = none ↔ r.min ≤ r.max := by
  unfold Httpsim.DurRange.Validate
  split <;> simp <;> omega

/-- C9: seed construction fails (the Go panic, embedded as `none`) exactly
on inputs whose byte length differs from 32, and on a 32-byte input it
succeeds with precisely those bytes — never truncating or padding. -/
theorem newSeed_length_check (s : List Nat) :
    (s.length ≠ 32 → Rand.NewSeed s = none) ∧
    (s.length = 32 → Rand.NewSeed s = some s) := by
  unfold Rand.NewSeed
  constructor
  · intro h
    simp [h]
  · intro h
    simp [h]

/-- Concrete instantiation of `newSeed_length_check`: a 31-byte input is
rejected and a 32-byte input is returned unchanged. -/
theorem newSeed_length_check_witness :
    Rand.NewSeed (List.replicate 31 0) = none ∧
    Rand.NewSeed (List.replicate 32 7) = some (List.replicate 32 7) :=
  ⟨(newSeed_length_check (List.replicate 31 0)).1 (by decide),
   (newSeed_length_check (List.replicate 32 7)).2 (by decide)⟩

/-- C6: a source freshly seeded from the bytes
`"0123456789abcdef0123456789abcdef"` yields, over the fixed call sequence
`Bool(); Dur(1s,1s); Dur(1s,2s); Dur(0,1h)`, exactly
`false, 1s, 1.684999282s, 25m7.572021725s` (nanosecond values), and any two
runs of the same call sequence from the same seed bytes produce identical
outputs. -/
theorem source_fixed_seed_reproducible :
    Rand.sourceRun (Rand.stringBytes "0123456789abcdef0123456789abcdef") =
      some (false, 1000000000, 1684999282, 1507572021725) ∧
    ∀ bytes : List Nat, Rand.sourceRun bytes = Rand.sourceRun bytes :=
  ⟨by decide, fun _ => rfl⟩

/-- Characterization of the scanning loop `matchFrom`: starting the scan of
`l` at absolute index `k`, either nothing in `l` matches and the result is
`-1`, or the result is `k + i` for the least relative index `i` whose rule
matches. -/
theorem matchFrom_spec (r : Httpsim.Request) (l : List Httpsim.Resource) (k : Nat) :
    (Httpsim.matchFrom r l k = -1 ∧
      ∀ res ∈ l, Httpsim.MatchResource r res = false) ∨
    (∃ i, ∃ h : i < l.length,
      Httpsim.matchFrom r l k = ((k + i : Nat) : Int) ∧
      Httpsim.MatchResource r (l.get ⟨i, h⟩) = true ∧
      ∀ j, ∀ hj : j < l.length, j < i →
        Httpsim.MatchResource r (l.get ⟨j, hj⟩) = false) := by
  induction l generalizing k with
  | nil =>
    left
    exact ⟨rfl, by simp⟩
  | cons res rest ih =>
    by_cases hm : Httpsim.MatchResource r res = true
    · right
      refine ⟨0, by simp, ?_, by simpa using hm, ?_⟩
      · simp [Httpsim.matchFrom, hm]
      · intro j hj hlt
        omega
    · have hm' : Httpsim.MatchResource r res = false := by
        cases h : Httpsim.MatchResource r res
        · rfl
        · exact absurd h hm
      have hstep : Httpsim.matchFrom r (res :: rest) k =
          Httpsim.matchFrom r rest (k + 1) := by
        simp [Httpsim.matchFrom, hm']
      rcases ih (k + 1) with ⟨heq, hall⟩ | ⟨i, hi, heq, hmi, hprev⟩
      · left
        refine ⟨by rw [hstep, heq], ?_⟩
        intro x hx
        rcases List.mem_cons.mp hx with h | h
        · rw [h]; exact hm'
        · exact hall x h
      · right
        refine ⟨i + 1, by simpa using Nat.succ_lt_succ hi, ?_, by simpa using hmi, ?_⟩
        · rw [hstep, heq]
          congr 1
          omega
        · intro j hj hlt
          cases j with
          | zero => simpa using hm'
          | succ j' =>
            have hj' : j' < rest.length := by
              simpa using Nat.lt_of_succ_lt_succ hj
            simpa using hprev j' hj' (by omega)

/-- C2: `Match` returns `-1` exactly when no rule matches, and otherwise the
lowest index `i` such that `MatchResource` holds for `rules[i]` — in
particular, when rules at indices `i < j` both match, the result is `i`
(first-match-wins over the configured order). -/
theorem match_first_match_wins (r : Httpsim.Request) (c : Httpsim.Config) :
    (Httpsim.Match r c = -1 ∧
      ∀ res ∈ c.resources, Httpsim.MatchResource r res = false) ∨
    (∃ i, ∃ h : i < c.resources.length,
      Httpsim.Match r c = (i : Int) ∧
      Httpsim.MatchResource r (c.resources.get ⟨i, h⟩) = true ∧
      ∀ j, ∀ hj : j < c.resources.length, j < i →
        Httpsim.MatchResource r (c.resources.get ⟨j, hj⟩) = false) := by
  have h := matchFrom_spec r c.resources 0
  simpa [Httpsim.Match] using h

/-- Positional reading of `List.all` over a `zip`: when every zipped pair
satisfies `p`, the pair at each common position does. -/
theorem zip_all_position {α β : Type} (p : α × β → Bool) :
    ∀ (l1 : List α) (l2 : List β), (l1.zip l2).all p = true →
    ∀ i, ∀ h1 : i < l1.length, ∀ h2 : i < l2.length,
      p (l1.get ⟨i, h1⟩, l2.get ⟨i, h2⟩) = true := by
  intro l1
  induction l1 with
  | nil =>
    intro l2 h i h1 h2
    simp at h1
  | cons a t ih =>
    intro l2 h i h1 h2
    cases l2 with
    | nil => simp at h2
    | cons b t2 =>
      simp only [List.zip_cons_cons, List.all_cons, Bool.and_eq_true] at h
      cases i with
      | zero => simpa using h.1
      | succ j =>
        have hj1 : j < t.length := by simpa using Nat.lt_of_succ_lt_succ h1
        have hj2 : j < t2.length := by simpa using Nat.lt_of_succ_lt_succ h2
        simpa using ih t2 h.2 j hj1 hj2

/-- Reading `matchGlobFields = true` entrywise: every configured name glob
forces, on every request field whose name it matches, exact value-list
cardinality and a per-position value-glob match. -/
theorem matchGlobFields_spec (cfg : List (Httpsim.GlobExpression × List Httpsim.GlobExpression))
    (req : List (String × List String))
    (h : Httpsim.matchGlobFields cfg req = true) :
    ∀ e ∈ cfg, ∀ f ∈ req, Httpsim.GlobExpression.Match e.1 f.1 = true →
      f.2.length = e.2.length ∧
      ∀ i, ∀ h1 : i < e.2.length, ∀ h2 : i < f.2.length,
        Httpsim.GlobExpression.Match (e.2.get ⟨i, h1⟩) (f.2.get ⟨i, h2⟩) = true := by
  intro e he f hf hname
  simp only [Httpsim.matchGlobFields, List.all_eq_true] at h
  have h3 := h e he f hf
  rw [hname] at h3
  simp only [Bool.not_true, Bool.false_or, Bool.and_eq_true, beq_iff_eq] at h3
  refine ⟨h3.1, ?_⟩
  intro i h1 h2
  exact zip_all_position _ e.2 f.2 h3.2 i h1 h2

/-- Splitting a successful `MatchResource` into its header and query
components. -/
theorem matchResource_parts (r : Httpsim.Request) (c : Httpsim.Resource)
    (h : Httpsim.MatchResource r c = true) :
    Httpsim.matchGlobFields c.headers r.headers = true ∧
    Httpsim.matchGlobFields c.query r.query = true := by
  unfold Httpsim.MatchResource at h
  split at h
  · exact Bool.noConfusion h
  · split at h
    · exact Bool.noConfusion h
    · simp only [Bool.and_eq_true] at h
      exact h

/-- C3: header and query matching is exact-cardinality and per-position —
whenever a rule matches a request, every request header (resp. query
parameter) whose name matches a configured name glob carries exactly as many
values as the configured value-glob list, and the value at each position `i`
matches the value glob at position `i`; in particular a rule requiring one
value for a parameter cannot match a request supplying two values for it. -/
theorem matchResource_exact_cardinality (r : Httpsim.Request) (c : Httpsim.Resource)
    (h : Httpsim.MatchResource r c = true) :
    (∀ e ∈ c.headers, ∀ f ∈ r.headers, Httpsim.GlobExpression.Match e.1 f.1 = true →
      f.2.length = e.2.length ∧
      ∀ i, ∀ h1 : i < e.2.length, ∀ h2 : i < f.2.length,
        Httpsim.GlobExpression.Match (e.2.get ⟨i, h1⟩) (f.2.get ⟨i, h2⟩) = true) ∧
    (∀ e ∈ c.query, ∀ f ∈ r.query, Httpsim.GlobExpression.Match e.1 f.1 = true →
      f.2.length = e.2.length ∧
      ∀ i, ∀ h1 : i < e.2.length, ∀ h2 : i < f.2.length,
        Httpsim.GlobExpression.Match (e.2.get ⟨i, h1⟩) (f.2.get ⟨i, h2⟩) = true) :=
  ⟨matchGlobFields_spec _ _ (matchResource_parts r c h).1,
   matchGlobFields_spec _ _ (matchResource_parts r c h).2⟩

/-- Concrete instantiation of `matchResource_exact_cardinality` on a rule
requiring one header value and one query value, matched by a request
supplying exactly one of each. -/
theorem matchResource_exact_cardinality_witness :
    Httpsim.MatchResource Httpsim.hdrReq Httpsim.hdrRule = true ∧
    (["foo"] : List String).length = [Httpsim.eqGlob "foo"].length := by
  refine ⟨by decide, ?_⟩
  have h := (matchResource_exact_cardinality Httpsim.hdrReq Httpsim.hdrRule (by decide)).1
  exact (h (Httpsim.eqGlob "X-Custom", [Httpsim.eqGlob "foo"])
      (List.mem_singleton.mpr rfl)
      ("X-Custom", ["foo"]) (List.mem_singleton.mpr rfl) (by decide)).1

/-- A configured field map imposes nothing on a request none of whose field
names match any configured name glob. -/
theorem matchGlobFields_no_names
    (cfg : List (Httpsim.GlobExpression × List Httpsim.GlobExpression))
    (req : List (String × List String))
    (h : ∀ e ∈ cfg, ∀ f ∈ req, Httpsim.GlobExpression.Match e.1 f.1 = false) :
    Httpsim.matchGlobFields cfg req = true := by
  simp only [Httpsim.matchGlobFields, List.all_eq_true]
  intro e he f hf
  simp [h e he f hf]

/-- C10: header and query constraints never require the presence of a field — a
configured name glob that matches no header (or query parameter) actually
present on the request is vacuously satisfied, so a rule constraining such
fields still matches whenever its method and path checks pass. -/
theorem matchResource_vacuous_absent_fields (r : Httpsim.Request) (c : Httpsim.Resource)
    (hm : c.methods = [] ∨ c.methods.contains r.method = true)
    (hp : Httpsim.GlobExpression.Match c.path r.path = true)
    (hh : ∀ e ∈ c.headers, ∀ f ∈ r.headers, Httpsim.GlobExpression.Match e.1 f.1 = false)
    (hq : ∀ e ∈ c.query, ∀ f ∈ r.query, Httpsim.GlobExpression.Match e.1 f.1 = false) :
    Httpsim.MatchResource r c = true := by
  unfold Httpsim.MatchResource
  have hcond : (0 < c.methods.length && !(c.methods.contains r.method)) = false := by
    rcases hm with h | h
    · simp [h]
    · simp only [h, Bool.not_true, Bool.and_false]
  rw [hcond]
  simp [hp, matchGlobFields_no_names _ _ hh, matchGlobFields_no_names _ _ hq]

/-- Concrete instantiation of `matchResource_vacuous_absent_fields`: the rule
constraining `Content-Type` and query parameter `foo` matches a request that
carries neither (it only has an `X-Custom` header and a `bazz` parameter). -/
theorem matchResource_vacuous_absent_fields_witness :
    Httpsim.MatchResource Httpsim.xCustomReq Httpsim.ctRule = true := by
  apply matchResource_vacuous_absent_fields
  · left; rfl
  · rfl
  · intro e he f hf
    simp only [Httpsim.ctRule, List.mem_singleton] at he
    simp only [Httpsim.xCustomReq, List.mem_singleton] at hf
    rw [he, hf]
    decide
  · intro e he f hf
    simp only [Httpsim.ctRule, List.mem_singleton] at he
    simp only [Httpsim.xCustomReq, List.mem_singleton] at hf
    rw [he, hf]
    decide

/-- The high half of a 128-bit product `v * n` is below `n` whenever
`v < 2^64` and `0 < n`. -/
theorem mul64hi_lt (v n : Nat) (hv : v < 2 ^ 64) (hn : 0 < n) :
    Rand.mul64hi v n < n := by
  unfold Rand.mul64hi
  rw [Nat.div_lt_iff_lt_mul (by norm_num : 0 < 2 ^ 64)]
  calc v * n < 2 ^ 64 * n := (Nat.mul_lt_mul_right hn).mpr hv
  _ = n * 2 ^ 64 := Nat.mul_comm _ _

/-- Every value produced by the rejection loop of `uint64n` is below `n`. -/
theorem uint64nLoop_lt {σ : Type} (next : σ → Nat × σ)
    (hnext : ∀ s, (next s).1 < 2 ^ 64) (n thresh : Nat) (hn : 0 < n) :
    ∀ fuel st v st', Rand.uint64nLoop next n thresh fuel st = some (v, st') → v < n := by
  intro fuel
  induction fuel with
  | zero =>
    intro st v st' h
    simp [Rand.uint64nLoop] at h
  | succ f ih =>
    intro st v st' h
    unfold Rand.uint64nLoop at h
    dsimp only at h
    split at h
    · exact ih _ v st' h
    · have := hnext st
      simp only [Option.some.injEq, Prod.mk.injEq] at h
      rw [← h.1]
      exact mul64hi_lt _ _ this hn

/-- Every value produced by `uint64n n` is below `n` (for `0 < n`). -/
theorem uint64n_lt {σ : Type} (next : σ → Nat × σ)
    (hnext : ∀ s, (next s).1 < 2 ^ 64) (fuel : Nat) (st : σ) (n : Nat) (hn : 0 < n) :
    ∀ v st', Rand.uint64n next fuel st n = some (v, st') → v < n := by
  intro v st' h
  unfold Rand.uint64n at h
  split at h
  · dsimp only at h
    simp only [Option.some.injEq, Prod.mk.injEq] at h
    rw [← h.1]
    calc (next st).1 &&& (n - 1) ≤ n - 1 := Nat.and_le_right
    _ < n := by omega
  · dsimp only at h
    split at h
    · split at h
      · exact uint64nLoop_lt next hnext n _ hn fuel _ v st' h
      · simp only [Option.some.injEq, Prod.mk.injEq] at h
        rw [← h.1]
        exact mul64hi_lt _ _ (hnext st) hn
    · simp only [Option.some.injEq, Prod.mk.injEq] at h
      rw [← h.1]
      exact mul64hi_lt _ _ (hnext st) hn

/-- C5: for `min ≥ max` the duration sampler returns exactly `min` and does
not touch the random stream (the stream state is returned unchanged);
for `min < max` any result it returns is `min` plus a draw from
`[0, max - min)`, hence lies in `[min, max)`. -/
theorem sampleDuration_spec {σ : Type} (next : σ → Nat × σ) (fuel : Nat) (st : σ)
    (mn mx : Int) (hnext : ∀ s, (next s).1 < 2 ^ 64) :
    (mn ≥ mx → Rand.durGen next fuel st mn mx = some (mn, st)) ∧
    (mn < mx → ∀ d st', Rand.durGen next fuel st mn mx = some (d, st') →
      mn ≤ d ∧ d < mx ∧ ∃ v : Nat, (v : Int) < mx - mn ∧ d = mn + (v : Int)) := by
  constructor
  · intro h
    unfold Rand.durGen
    rw [if_pos h]
  · intro h d st' hd
    unfold Rand.durGen at hd
    rw [if_neg (by omega)] at hd
    cases huint : Rand.uint64n next fuel st (mx - mn).toNat with
    | none => rw [huint] at hd; exact Option.noConfusion hd
    | some p =>
      obtain ⟨v, st''⟩ := p
      rw [huint] at hd
      simp only [Option.some.injEq, Prod.mk.injEq] at hd
      have hvn : v < (mx - mn).toNat :=
        uint64n_lt next hnext fuel st _ (by omega) v st'' huint
      have hvi : (v : Int) < mx - mn := by omega
      refine ⟨by omega, by omega, v, hvi, by omega⟩

/-- Concrete instantiation of `sampleDuration_spec`: on the constant-zero
stream, `Dur(1, 1)` is `1` with the state untouched, and `Dur(0, 2)` returns
a value in `[0, 2)`. -/
theorem sampleDuration_spec_witness :
    Rand.durGen (fun s : Unit => (0, s)) 5 () 1 1 = some (1, ()) ∧
    ((0 : Int) ≤ 0 ∧ (0 : Int) < 2 ∧ ∃ v : Nat, (v : Int) < 2 - 0 ∧ (0 : Int) = 0 + (v : Int)) := by
  constructor
  · exact (sampleDuration_spec (fun s : Unit => (0, s)) 5 () 1 1
      (fun _ => by norm_num)).1 (le_refl 1)
  · exact (sampleDuration_spec (fun s : Unit => (0, s)) 5 () 0 2
      (fun _ => by norm_num)).2 (by norm_num) 0 () (by decide)

/-- Folding `Header().Set` calls over a writer never touches its committed
status or its body. -/
theorem foldl_setHeader_frame (l : List (String × String)) (w : Httpsim.ResponseWriter) :
    (l.foldl (fun w kv => Httpsim.setHeader w kv.1 kv.2) w).status = w.status ∧
    (l.foldl (fun w kv => Httpsim.setHeader w kv.1 kv.2) w).body = w.body := by
  induction l generalizing w with
  | nil => exact ⟨rfl, rfl⟩
  | cons hd tl ih => simpa using ih (Httpsim.setHeader w hd.1 hd.2)

/-- A header name set by none of the folded `Set` calls keeps its previous
value. -/
theorem getHeader_foldl_not_mem (l : List (String × String)) (w : Httpsim.ResponseWriter)
    (k : String) (h : k ∉ l.map Prod.fst) :
    Httpsim.getHeader (l.foldl (fun w kv => Httpsim.setHeader w kv.1 kv.2) w) k =
      Httpsim.getHeader w k := by
  induction l generalizing w with
  | nil => rfl
  | cons hd tl ih =>
    simp only [List.map_cons, List.mem_cons] at h
    push_neg at h
    rw [List.foldl_cons, ih _ h.2]
    simp only [Httpsim.getHeader, Httpsim.setHeader]
    rw [if_neg (by simpa using h.1)]

/-- After folding `Set` calls for an association list with pairwise distinct
names, each name reads back exactly its configured value. -/
theorem getHeader_foldl_mem (l : List (String × String)) (w : Httpsim.ResponseWriter)
    (hnodup : (l.map Prod.fst).Nodup) :
    ∀ kv ∈ l,
      Httpsim.getHeader (l.foldl (fun w kv => Httpsim.setHeader w kv.1 kv.2) w) kv.1 =
        some kv.2 := by
  induction l generalizing w with
  | nil => simp
  | cons hd tl ih =>
    rw [List.map_cons, List.nodup_cons] at hnodup
    intro kv hkv
    rcases List.mem_cons.mp hkv with h | h
    · rw [h, List.foldl_cons, getHeader_foldl_not_mem tl _ hd.1 hnodup.1]
      simp [Httpsim.getHeader, Httpsim.setHeader]
    · rw [List.foldl_cons]
      exact ih _ hnodup.2 kv h

/-- `WriteHeader` on a writer with no committed status commits the given
code. -/
theorem writeHeader_uncommitted (w : Httpsim.ResponseWriter) (c : Int)
    (h : w.status = none) :
    Httpsim.writeHeader w c = ⟨w.headerMap, w.body, some c⟩ := by
  unfold Httpsim.writeHeader
  rw [h]

/-- Reduction of `ServeHTTP` when the matcher returns index `i` holding
resource `res`. -/
theorem serveHTTP_eq_of_match (rnd : Int → Int → Int) (conf : Httpsim.Config)
    (r : Httpsim.Request) (w : Httpsim.ResponseWriter) (i : Nat)
    (res : Httpsim.Resource)
    (hget : conf.resources.get? i = some res)
    (hm : Httpsim.Match r conf = (i : Int)) :
    Httpsim.Middleware.ServeHTTP rnd conf r w =
      (match res.effect with
       | some eff =>
         let t := Httpsim.Middleware.apply rnd w eff
         ⟨t.1, t.2.1, !t.2.2.2, some ⟨(i : Int), t.2.2.1, t.2.2.2⟩⟩
       | none => ⟨w, [], true, some ⟨(i : Int), 0, false⟩⟩) := by
  have hne : (((i : Nat) : Int) == -1) = false := by
    rw [beq_eq_false_iff_ne]
    omega
  have hresd : conf.resources.getD ((i : Int)).toNat default = res := by
    rw [Int.toNat_natCast, List.getD_eq_getElem?_getD, List.get?_eq_getElem?] at *
    rw [hget]
    rfl
  unfold Httpsim.Middleware.ServeHTTP
  rw [hm]
  dsimp only
  rw [hne, hresd]
  cases res.effect with
  | none => rfl
  | some eff =>
    simp only []
    rcases Httpsim.Middleware.apply rnd w eff with ⟨w', slept, delay, replaced⟩
    rfl

/-- Reduction of `Middleware.apply` for an effect whose replacement is set:
headers are folded over the writer, then the body (when present) is written,
then the status code; `replaced = true` is reported. -/
theorem apply_replace (rnd : Int → Int → Int) (w : Httpsim.ResponseWriter)
    (eff : Httpsim.Effect) (rep : Httpsim.Replace)
    (hrep : eff.replace = some rep) :
    Httpsim.Middleware.apply rnd w eff =
      (Httpsim.writeHeader
        (match rep.body with
         | some b =>
           Httpsim.writeBody
             (rep.headers.foldl (fun w kv => Httpsim.setHeader w kv.1 kv.2) w) b
         | none => rep.headers.foldl (fun w kv => Httpsim.setHeader w kv.1 kv.2) w)
        rep.statusCode,
       (match eff.delay with | some d => [rnd d.min d.max] | none => []),
       (match eff.delay with | some d => rnd d.min d.max | none => 0),
       true) := by
  unfold Httpsim.Middleware.apply
  rw [hrep]
  cases eff.delay <;> rfl

/-- Reduction of `Middleware.apply` for a delay-only effect: the writer is
returned untouched, the sampled delay is slept and reported, and
`replaced = false`. -/
theorem apply_delay_only (rnd : Int → Int → Int) (w : Httpsim.ResponseWriter)
    (eff : Httpsim.Effect) (d : Httpsim.DurRange)
    (hd : eff.delay = some d) (hr : eff.replace = none) :
    Httpsim.Middleware.apply rnd w eff =
      (w, [rnd d.min d.max], rnd d.min d.max, false) := by
  unfold Httpsim.Middleware.apply
  rw [hd, hr]

/-- C1 counterexample: on the end-to-end scenario itself (rule
`path: "/specific"`, `methods: [DELETE]`, `effect.replace: {statusCode: 404,
body: "Specific resource not found", headers: {Content-Type: text/plain}}`,
request `DELETE /specific`), the middleware commits status 200 — not the
configured 404 — because `apply` writes the body before `WriteHeader`, and
the first body write commits the default status 200, after which
`WriteHeader(404)` is superfluous and ignored (the repository test
`TestHandleReplace` pins `StatusOK` for this situation). -/
theorem serve_replace_status_counterexample :
    (Httpsim.Middleware.ServeHTTP (fun a _ => a) Httpsim.specificConf
      Httpsim.deleteSpecificReq Httpsim.freshW).w.status = some 200 ∧
    ¬ (Httpsim.Middleware.ServeHTTP (fun a _ => a) Httpsim.specificConf
      Httpsim.deleteSpecificReq Httpsim.freshW).w.status = some 404 := by
  decide

/-- C1 amended: for every request that matches a rule whose effect has a
replacement, the response carries exactly the configured body, every
configured literal header reads back with its configured value, and the next
handler is never invoked; the committed status code is the configured one
only when no body is configured — when a body is present, the body write
commits status 200 and the configured status code is ignored. -/
theorem serve_replace_semantics (rnd : Int → Int → Int) (conf : Httpsim.Config)
    (r : Httpsim.Request) (i : Nat) (res : Httpsim.Resource) (eff : Httpsim.Effect)
    (rep : Httpsim.Replace)
    (hget : conf.resources.get? i = some res)
    (hm : Httpsim.Match r conf = (i : Int))
    (heff : res.effect = some eff)
    (hrep : eff.replace = some rep)
    (hnodup : (rep.headers.map Prod.fst).Nodup) :
    (Httpsim.Middleware.ServeHTTP rnd conf r Httpsim.freshW).nextInvoked = false ∧
    (Httpsim.Middleware.ServeHTTP rnd conf r Httpsim.freshW).w.body = rep.body.getD "" ∧
    (Httpsim.Middleware.ServeHTTP rnd conf r Httpsim.freshW).w.status =
      some (if rep.body.isSome then 200 else rep.statusCode) ∧
    ∀ kv ∈ rep.headers,
      Httpsim.getHeader (Httpsim.Middleware.ServeHTTP rnd conf r Httpsim.freshW).w kv.1 =
        some kv.2 := by
  rw [serveHTTP_eq_of_match rnd conf r Httpsim.freshW i res hget hm, heff]
  simp only []
  rw [apply_replace rnd Httpsim.freshW eff rep hrep]
  have hframe := foldl_setHeader_frame rep.headers Httpsim.freshW
  have hst : (rep.headers.foldl (fun w kv => Httpsim.setHeader w kv.1 kv.2)
      Httpsim.freshW).status = none := hframe.1
  have hbd : (rep.headers.foldl (fun w kv => Httpsim.setHeader w kv.1 kv.2)
      Httpsim.freshW).body = "" := hframe.2
  cases hb : rep.body with
  | some b =>
    refine ⟨rfl, ?_, ?_, ?_⟩
    · simp [Httpsim.writeBody, Httpsim.writeHeader, hbd]
    · simp [Httpsim.writeBody, Httpsim.writeHeader, hst]
    · intro kv hkv
      have hlook := getHeader_foldl_mem rep.headers Httpsim.freshW hnodup kv hkv
      simpa [Httpsim.getHeader, Httpsim.writeBody, Httpsim.writeHeader] using hlook
  | none =>
    dsimp only
    rw [writeHeader_uncommitted _ _ hst]
    refine ⟨rfl, by simpa using hbd, rfl, ?_⟩
    intro kv hkv
    have hlook := getHeader_foldl_mem rep.headers Httpsim.freshW hnodup kv hkv
    simpa [Httpsim.getHeader] using hlook

/-- Concrete instantiation of `serve_replace_semantics` on the end-to-end
scenario: the next handler is not invoked, the body is exactly the configured
one, `Content-Type` reads back `text/plain`, and the committed status is
200 (the configured 404 being ignored because a body is present). -/
theorem serve_replace_semantics_witness :
    (Httpsim.Middleware.ServeHTTP (fun a _ => a) Httpsim.specificConf
      Httpsim.deleteSpecificReq Httpsim.freshW).nextInvoked = false ∧
    (Httpsim.Middleware.ServeHTTP (fun a _ => a) Httpsim.specificConf
      Httpsim.deleteSpecificReq Httpsim.freshW).w.body = "Specific resource not found" ∧
    Httpsim.getHeader (Httpsim.Middleware.ServeHTTP (fun a _ => a) Httpsim.specificConf
      Httpsim.deleteSpecificReq Httpsim.freshW).w "Content-Type" = some "text/plain" := by
  have h := serve_replace_semantics (fun a _ => a) Httpsim.specificConf
    Httpsim.deleteSpecificReq 0 Httpsim.specificRule
    ⟨none, some ⟨404, some "Specific resource not found", [("Content-Type", "text/plain")]⟩⟩
    ⟨404, some "Specific resource not found", [("Content-Type", "text/plain")]⟩
    rfl (by decide) rfl rfl (by decide)
  exact ⟨h.1, h.2.1,
    h.2.2.2 ("Content-Type", "text/plain") (List.mem_singleton.mpr rfl)⟩

/-- C8: for every request matching a rule whose effect is only the delay
range `{min: 1s, max: 2s}` (no replacement), and every randomness provider
whose `Dur` respects its `[min, max)` contract, the middleware sleeps exactly
the sampled duration, which lies in `[1s, 2s]`, forwards to the next handler,
leaves the response writer completely untouched, and attaches the sampled
delay with `replaced = false` to the request context. -/
theorem serve_delay_only (rnd : Int → Int → Int)
    (hrnd : ∀ a b : Int, a < b → a ≤ rnd a b ∧ rnd a b < b)
    (conf : Httpsim.Config) (r : Httpsim.Request) (i : Nat)
    (res : Httpsim.Resource) (eff : Httpsim.Effect)
    (hget : conf.resources.get? i = some res)
    (hm : Httpsim.Match r conf = (i : Int))
    (heff : res.effect = some eff)
    (hd : eff.delay = some ⟨1000000000, 2000000000⟩)
    (hr : eff.replace = none)
    (w : Httpsim.ResponseWriter) :
    Httpsim.Middleware.ServeHTTP rnd conf r w =
      ⟨w, [rnd 1000000000 2000000000], true,
        some ⟨(i : Int), rnd 1000000000 2000000000, false⟩⟩ ∧
    1000000000 ≤ rnd 1000000000 2000000000 ∧
    rnd 1000000000 2000000000 ≤ 2000000000 := by
  rw [serveHTTP_eq_of_match rnd conf r w i res hget hm, heff]
  simp only []
  rw [apply_delay_only rnd w eff ⟨1000000000, 2000000000⟩ hd hr]
  have hb := hrnd 1000000000 2000000000 (by norm_num)
  exact ⟨rfl, hb.1, le_of_lt hb.2⟩

/-- Concrete instantiation of `serve_delay_only` on a one-rule delay-only
configuration, with the `Dur` provider that returns the range minimum. -/
theorem serve_delay_only_witness :
    Httpsim.Middleware.ServeHTTP (fun a _ => a) Httpsim.delayConf Httpsim.plainReq
        Httpsim.freshW =
      ⟨Httpsim.freshW, [1000000000], true, some ⟨0, 1000000000, false⟩⟩ ∧
    (1000000000 : Int) ≤ 1000000000 ∧ (1000000000 : Int) ≤ 2000000000 := by
  have h := serve_delay_only (fun a _ => a) (fun a _ hab => ⟨le_refl a, hab⟩)
    Httpsim.delayConf Httpsim.plainReq 0 Httpsim.delayRule
    ⟨some ⟨1000000000, 2000000000⟩, none⟩ rfl (by decide) rfl rfl rfl
    Httpsim.freshW
  exact h
